import Mathlib

/-!
Verification of the incremental reconciliation engine of
`api_elecciones_datos.py` (repository `Hatmin/elecciones`).

The embedding is a faithful value-level translation of the Python source:

* Python floats are modelled as exact rationals (`ℚ`).
* A CSV row (the 11-column list produced by `build_rows_full`) is modelled
  as the structure `Row`; the two numeric columns `votos_pct` and
  `mesas_pct`, which the source stores as strings produced by
  `truncate_2`, are modelled by the exact rational value those strings
  denote (`trunc2Val` of the raw value).  Equality of `Row` values
  coincides with byte-for-byte equality of the CSV rows, since
  `truncate_2` renders equal values to equal strings.
* Python dicts are modelled as insertion-ordered association lists.
* Python exceptions are modelled with `Option` (`none` = the call raised).
-/

namespace Elecciones

/-- Value denoted by the string `truncate_2 x`: scale by 100, truncate
toward zero (`int(val * 100.0)` on the nonnegative `val = abs x`),
rescale and restore the sign. -/
def trunc2Val (x : ℚ) : ℚ :=
  if x < 0 then -(((⌊(-x) * 100⌋ : ℤ) : ℚ) / 100) else ((⌊x * 100⌋ : ℤ) : ℚ) / 100

/-- Two-digit rendering of a fractional part in hundredths. -/
def pad2 (n : ℕ) : String := if n < 10 then "0" ++ toString n else toString n

/-- The source's `truncate_2`: truncate (never round) to two decimals and
format with two decimal places; a negative input keeps its sign even when
the truncation is zero (Python formats `-0.0` as `"-0.00"`). -/
def truncate_2 (x : ℚ) : String :=
  let neg := x < 0
  let t : ℤ := ⌊(|x|) * 100⌋
  let n : ℕ := t.toNat
  (if neg then "-" else "") ++ toString (n / 100) ++ "." ++ pad2 (n % 100)

/-- One CSV row, in the column order of `friendly_header()`. -/
structure Row where
  ambito : String
  ambito_id : String
  provincia : String
  categoria : String
  puesto : String
  agrupacion_id : String
  agrupacion : String
  votos_pct : ℚ
  mesas_pct : ℚ
  foto : String
  ts_iso : String
deriving DecidableEq, Repr

/-- Python `str.strip()` (ASCII whitespace) on a character list. -/
def isWsp (c : Char) : Bool := c = ' ' || c = '\t' || c = '\n' || c = '\r'

/-- Remove leading and trailing whitespace characters. -/
def trimCs (cs : List Char) : List Char :=
  ((cs.dropWhile isWsp).reverse.dropWhile isWsp).reverse

/-- Python `s.strip()`. -/
def pyStrip (s : String) : String := String.mk (trimCs s.data)

/-- The row key used by `index_rows_by_key`: `f"{r[0]}|{r[1]}|{r[3]}"`. -/
def rowKey (r : Row) : String := r.ambito ++ "|" ++ r.ambito_id ++ "|" ++ r.categoria

/-- The identity of a row, from `_rank_and_stabilize_rows.unique_key_of`:
the stripped `agrupacion_id` when nonempty, else the stripped name. -/
def unique_key_of (r : Row) : String :=
  let agr_id := pyStrip r.agrupacion_id
  if agr_id ≠ "" then agr_id else pyStrip r.agrupacion

/-- Python dicts are modelled as insertion-ordered association lists. -/
abbrev Dict (α : Type) := List (String × α)

/-- Dict lookup (`d.get(k)`). -/
def dGet {α : Type} : Dict α → String → Option α
  | [], _ => none
  | p :: ps, k => if p.1 = k then some p.2 else dGet ps k

/-- Dict assignment (`d[k] = v`): an existing key is updated in place
(keeping its position), a new key is appended at the end. -/
def dSet {α : Type} : Dict α → String → α → Dict α
  | [], k, v => [(k, v)]
  | p :: ps, k, v => if p.1 = k then (k, v) :: ps else p :: dSet ps k v

/-- Model of `d.setdefault(k, []).append(r)` as used by `index_rows_by_key`. -/
def dAppendRow : Dict (List Row) → String → Row → Dict (List Row)
  | [], k, r => [(k, [r])]
  | p :: ps, k, r => if p.1 = k then (p.1, p.2 ++ [r]) :: ps else p :: dAppendRow ps k r

/-- The source's `index_rows_by_key`: group rows by their scope key,
preserving order within each key and first-appearance order of keys. -/
def index_rows_by_key (rows : List Row) : Dict (List Row) :=
  rows.foldl (fun d r => dAppendRow d (rowKey r) r) []

/-- Model of `dict(a)` followed by `.update(b)`. -/
def dMerge {α : Type} (a b : Dict α) : Dict α :=
  b.foldl (fun d p => dSet d p.1 p.2) a

/-- Concatenation of all values of a row dict, in entry order. -/
def dFlatten (d : Dict (List Row)) : List Row := (d.map (fun p => p.2)).flatten

/-- The sort key of `_rank_and_stabilize_rows.votos_float`: `float(r[7])`.
In the model the column already holds the denoted rational, and the
strings written by `truncate_2` always parse, so the `except` branch of
the source is dead. -/
def votos_float (r : Row) : ℚ := r.votos_pct

/-- Descending order on `votos_float`, the relation of the stable sort
`sorted(deduped, key=votos_float, reverse=True)`. -/
def rowsDesc (a b : Row) : Prop := votos_float b ≤ votos_float a

instance : DecidableRel rowsDesc := fun a b =>
  inferInstanceAs (Decidable (votos_float b ≤ votos_float a))

/-- First-occurrence order of a key list, the iteration order of
`dict.keys()` for a dict built by repeated assignment. -/
def firstOccurrences : List String → List String
  | [] => []
  | k :: ks => k :: (firstOccurrences ks).filter (fun x => x ≠ k)

/-- Value stored under `k` in `{unique_key_of(r): r for r in rs}`:
the last row of `rs` whose identity is `k` (later assignments win). -/
def lastWithKey (rs : List Row) (k : String) : Option Row :=
  (rs.filter (fun r => unique_key_of r == k)).getLast?

/-- The dedup loop of `_rank_and_stabilize_rows`: keep the first row for
every identity, in order. -/
def dedupByKey : List Row → List String → List Row
  | [], _ => []
  | r :: rs, seen =>
    let uk := unique_key_of r
    if uk ∈ seen then dedupByKey rs seen else r :: dedupByKey rs (uk :: seen)

/-- The rank-assignment loop: `for i, r in enumerate(ordered, start=1):
r[4] = str(i)`. -/
def assignPuestos : ℕ → List Row → List Row
  | _, [] => []
  | i, r :: rs => { r with puesto := toString i } :: assignPuestos (i + 1) rs

/-- The 0.00-share stub appended for a previously seen identity missing
from the current rows: scope columns and progress/timestamp from the
first current row (`rows[0]`), identity columns and photo from the
remembered previous row (`pr`).  Every row the program produces has all
11 columns, so the defensive `pr[9] if len(pr) > 9 else rows[0][9]` of
the source always takes the `pr[9]` (previous photo) branch. -/
def stubRow (r0 pr : Row) : Row :=
  { ambito := r0.ambito, ambito_id := r0.ambito_id, provincia := r0.provincia
    categoria := r0.categoria, puesto := "0", agrupacion_id := pr.agrupacion_id
    agrupacion := pr.agrupacion, votos_pct := 0, mesas_pct := r0.mesas_pct
    foto := pr.foto, ts_iso := r0.ts_iso }

/-- The `missing_keys` list: previously seen identities (first-occurrence order of
`prev_by_key.keys()`) absent from the current rows. -/
def missingKeys (rows prev_rows : List Row) : List String :=
  (firstOccurrences (prev_rows.map unique_key_of)).filter
    (fun k => ! rows.any (fun r => unique_key_of r == k))

/-- The reinstatement step (`if rows:` then append one stub per missing
key, looked up in `prev_by_key`, where the dict comprehension keeps the
last row per identity). -/
def withStubs (rows prev_rows : List Row) : List Row :=
  match rows with
  | [] => rows
  | r0 :: _ =>
    rows ++ (missingKeys rows prev_rows).filterMap (fun k =>
      (lastWithKey prev_rows k).map (fun pr => stubRow r0 pr))

/-- The source's `_rank_and_stabilize_rows`: reinstate missing previously
seen identities as stubs, deduplicate by identity keeping the first
occurrence, sort stably by descending vote share, assign 1-based ranks. -/
def _rank_and_stabilize_rows (ambito_key : String) (rows : List Row)
    (prev_rows_by_key : Dict (List Row)) : List Row :=
  let prev_rows := (dGet prev_rows_by_key ambito_key).getD []
  let rows1 := withStubs rows prev_rows
  let deduped := dedupByKey rows1 []
  let ordered := List.insertionSort rowsDesc deduped
  assignPuestos 1 ordered

/-- The source's `enforce_mesas_monotonic`: if a previous progress value
exists and the current one is lower, rewrite the progress column of every
row with the previous value and leave the table untouched; otherwise
record the current value as the new baseline. -/
def enforce_mesas_monotonic (key : String) (rows : List Row) (mesas_pct_current : ℚ)
    (prev_mesas_pct_by_key : Dict ℚ) : List Row × Dict ℚ :=
  match dGet prev_mesas_pct_by_key key with
  | some prev =>
    if mesas_pct_current < prev then
      (rows.map (fun r => { r with mesas_pct := trunc2Val prev }), prev_mesas_pct_by_key)
    else (rows, dSet prev_mesas_pct_by_key key mesas_pct_current)
  | none => (rows, dSet prev_mesas_pct_by_key key mesas_pct_current)

/-- A scope's cycles, threaded through `enforce_mesas_monotonic` exactly
as `main` does: each cycle supplies the scope's freshly built rows and
the raw `mesas_pct_val`; the guard's table survives from cycle to cycle
(it is never reset).  Returns the published row lists, one per cycle. -/
def guardCycles (key : String) : Dict ℚ → List (List Row × ℚ) → List (List Row)
  | _, [] => []
  | tbl, (rows, cur) :: rest =>
    let p := enforce_mesas_monotonic key rows cur tbl
    p.1 :: guardCycles key p.2 rest

/-- A JSON scalar as it reaches the field-extraction code; `null` also
stands for an absent key (`dict.get` returns `None`). -/
inductive JVal
  | null
  | num (q : ℚ)
  | str (s : String)
deriving DecidableEq, Repr

/-- Python truthiness of a field value (`None`, `0` and `""` are falsy). -/
def JVal.truthy : JVal → Bool
  | .null => false
  | .num q => q ≠ 0
  | .str s => s ≠ ""

/-- Python `a or b`: the first operand when truthy, else the second. -/
def jOr (a b : JVal) : JVal := if a.truthy then a else b

/-- Deterministic rendering of a numeric field by `str()`.  The claims
never depend on the exact text of a numeric id, only on whether it is
empty and on its equality across cycles, so an exact model of Python
float repr is not needed. -/
def ratRepr (q : ℚ) : String :=
  if q.den = 1 then toString q.num else toString q.num ++ "/" ++ toString q.den

/-- Model of `str(v or "")`: the string form of a truthy value, else `""`. -/
def pyStrOr (v : JVal) : String :=
  if v.truthy then
    match v with
    | .str s => s
    | .num q => ratRepr q
    | .null => "None"
  else ""

/-- Digit-list value, for the decimal parser. -/
def digitsVal (cs : List Char) : ℕ := cs.foldl (fun a c => a * 10 + (c.toNat - 48)) 0

/-- Whether every character is a decimal digit. -/
def allDigits (cs : List Char) : Bool := cs.all (fun c => c.isDigit)

/-- Split a character list at the first dot. -/
def splitDot : List Char → List Char × Option (List Char)
  | [] => ([], none)
  | c :: cs =>
    if c = '.' then ([], some cs)
    else
      let p := splitDot cs
      (c :: p.1, p.2)

/-- Plain decimal forms accepted by Python `float` on an unsigned body. -/
def parsePyFloatCore (cs : List Char) : Option ℚ :=
  match splitDot cs with
  | (a, none) => if a ≠ [] && allDigits a then some ((digitsVal a : ℕ) : ℚ) else none
  | (a, some b) =>
    if allDigits a && allDigits b && (a ≠ [] || b ≠ []) then
      some (((digitsVal a : ℕ) : ℚ) + ((digitsVal b : ℕ) : ℚ) / ((10 : ℚ) ^ b.length))
    else none

/-- Python `float(s)` on a string, for the plain decimal forms
(`"12"`, `"12.5"`, `".5"`, signed variants, surrounding whitespace);
exponent and infinity forms are not needed by any payload the claims
touch.  `none` models a raised `ValueError`. -/
def parsePyFloat (s : String) : Option ℚ :=
  match trimCs s.data with
  | '-' :: rest => (parsePyFloatCore rest).map (fun q => -q)
  | '+' :: rest => parsePyFloatCore rest
  | t => parsePyFloatCore t

/-- Python `float(v)` on a field value; `none` models a raised
`TypeError`/`ValueError`. -/
def pyFloat : JVal → Option ℚ
  | .num q => some q
  | .str s => parsePyFloat s
  | .null => none

/-- One element of the payload's `valoresTotalizadosPositivos` list, with
the fields the source reads. -/
structure Item where
  idAgrupacion : JVal := .null
  itemId : JVal := .null
  nombreAgrupacion : JVal := .null
  nombre : JVal := .null
  votosPorcentaje : JVal := .null
  porcentajeVotos : JVal := .null
deriving DecidableEq, Repr

/-- The source's `build_rows_full.pct_of`:
`float(x.get("votosPorcentaje") or x.get("porcentajeVotos") or 0.0)`.
`none` models the `float` call raising. -/
def pct_of (it : Item) : Option ℚ :=
  pyFloat (jOr it.votosPorcentaje (jOr it.porcentajeVotos (.num 0)))

/-- The source's `_foto_for`.  `str(Path(base) / c)` is modelled as
`base ++ "/" ++ c`. -/
def _foto_for (item : Item) (photos_base photos_default : String)
    (fotos_map : Dict String) : String :=
  let pid := pyStrip (pyStrOr (jOr item.idAgrupacion item.itemId))
  let pname := pyStrip (pyStrOr (jOr item.nombreAgrupacion item.nombre))
  let key := if pid ≠ "" then pid else pname
  let c1 := (dGet fotos_map key).getD ""
  let c2 := (dGet fotos_map pname).getD ""
  let c3 := (dGet fotos_map pid).getD ""
  let cand := if c1 ≠ "" then c1 else if c2 ≠ "" then c2 else c3
  if cand ≠ "" then
    if photos_base ≠ "" then photos_base ++ "/" ++ cand else cand
  else
    if photos_base ≠ "" && photos_default ≠ "" then photos_base ++ "/" ++ photos_default
    else photos_default

/-- Descending order on the precomputed sort key, for
`sorted(items, key=pct_of, reverse=True)` (stable). -/
def itemsDesc (a b : Item × ℚ) : Prop := b.2 ≤ a.2

instance : DecidableRel itemsDesc := fun a b => inferInstanceAs (Decidable (b.2 ≤ a.2))

/-- Pair every item with its sort key `pct_of it`; `none` when `float`
raises on any item (Python `sorted` computes every key up front, so one
bad item aborts the whole sort). -/
def pctKeyed : List Item → Option (List (Item × ℚ))
  | [] => some []
  | it :: its =>
    match pct_of it, pctKeyed its with
    | some q, some ps => some ((it, q) :: ps)
    | _, _ => none

/-- The source's `build_rows_full`, given the extracted positive-tally
item list (`res.get("valoresTotalizadosPositivos") or []`) and the
already-resolved progress value (`get_mesas_pct_with_fallback` performs
network I/O and is passed in as `mesas_pct`).  `none` models an exception
escaping `build_rows_full` (it is caught by `main`'s per-scope handler). -/
def build_rows_full (items : List Item)
    (ambito ambito_id provincia categoria_name ts_iso : String)
    (photos_base photos_default : String) (fotos_map : Dict String)
    (mesas_pct : ℚ) : Option (List Row × ℚ) :=
  match pctKeyed items with
  | none => none
  | some keyed =>
    let sorted_items := List.insertionSort itemsDesc keyed
    some (sorted_items.map (fun p =>
      { ambito := ambito, ambito_id := ambito_id, provincia := provincia
        categoria := categoria_name, puesto := "0"
        agrupacion_id := pyStrOr p.1.idAgrupacion
        agrupacion := pyStrOr (jOr p.1.nombreAgrupacion p.1.nombre)
        votos_pct := trunc2Val p.2, mesas_pct := trunc2Val mesas_pct
        foto := _foto_for p.1 photos_base photos_default fotos_map
        ts_iso := ts_iso }), mesas_pct)

/-- Diagnostics produced by `_validate_rows_per_ambito` (the source
formats them as strings; the two kinds are modelled structurally). -/
inductive Warning
  | sumExceeds (key : String) (total : ℚ)
  | dupId (key : String) (id : String)
deriving DecidableEq, Repr

/-- Whether a warning is the duplicate-identity warning. -/
def Warning.isDup : Warning → Bool
  | .dupId _ _ => true
  | _ => false

/-- The duplicate-`agrupacion_id` scan of `_validate_rows_per_ambito`:
first duplicate nonempty stripped id wins, then the loop breaks. -/
def dupWarn (key : String) : List Row → List String → Option Warning
  | [], _ => none
  | r :: rs, seen =>
    let agr_id := pyStrip r.agrupacion_id
    if agr_id ≠ "" then
      if agr_id ∈ seen then some (.dupId key agr_id)
      else dupWarn key rs (agr_id :: seen)
    else dupWarn key rs seen

/-- The source's `_validate_rows_per_ambito`: a share-sum bound warning
followed by at most one duplicate-identity warning. -/
def _validate_rows_per_ambito (ambito_key : String) (rows : List Row) : List Warning :=
  let total := (rows.map votos_float).sum
  (if total > 10001 / 100 then [Warning.sumExceeds ambito_key total] else [])
    ++ (dupWarn ambito_key rows []).toList

/-- What one scope's fetch produced this cycle.

* `skipped`: the scope's loop body never ran (its category's
  `resolve_pba_and_districts` raised and `main` did `continue`, or the
  district vanished from the catalog).
* `fetchFail`: the scope's `try` block raised (transport error, non-2xx,
  decode failure, or `float()` raising inside `build_rows_full`).
* `fetched entries cur`: `build_rows_full` returned `entries` (possibly
  empty) with raw progress value `cur`. -/
inductive Outcome
  | skipped
  | fetchFail
  | fetched (entries : List Row) (mesas_pct_val : ℚ)
deriving DecidableEq, Repr

/-- One iteration of `main`'s per-scope loop: the scope key
(`"NACIONAL|AR|…"`, `"PBA|PBA|…"`, `"PROVINCIA|did|…"`) and what its
fetch produced. -/
structure Slot where
  key : String
  outcome : Outcome
deriving DecidableEq, Repr

/-- Observable events of a cycle: a scope's reconciliation completing,
and an invocation of the output writer `atomic_write_csv`. -/
inductive Ev
  | recon (key : String)
  | write (rows : List Row)
deriving DecidableEq, Repr

/-- Whether an event is a writer invocation. -/
def Ev.isWrite : Ev → Bool
  | .write _ => true
  | _ => false

/-- In-cycle accumulator of `main`'s loop: the accumulated `rows`, the
mesas table (mutated during the cycle by `enforce_mesas_monotonic`), the
`ambitos_ok` counter and the event trace. -/
structure CycleAcc where
  rows : List Row
  mesasTbl : Dict ℚ
  ambitos_ok : ℕ
  trace : List Ev
deriving Repr

/-- One scope's block in `main`'s loop, translated branch for branch:
on failure or an empty result, extend `rows` with the scope's previous
rows (`prev_rows_by_key.get(key, [])`); on success, stabilize, clamp the
progress, extend `rows`, bump `ambitos_ok` and perform the incremental
write of the previous table merged with the rows indexed so far. -/
def slotStep (prev_rows_by_key : Dict (List Row)) (acc : CycleAcc) (s : Slot) : CycleAcc :=
  match s.outcome with
  | .skipped => acc
  | .fetchFail =>
    { acc with rows := acc.rows ++ (dGet prev_rows_by_key s.key).getD []
               trace := acc.trace ++ [.recon s.key] }
  | .fetched entries cur =>
    if entries = [] then
      { acc with rows := acc.rows ++ (dGet prev_rows_by_key s.key).getD []
                 trace := acc.trace ++ [.recon s.key] }
    else
      let amb := _rank_and_stabilize_rows s.key entries prev_rows_by_key
      let p := enforce_mesas_monotonic s.key amb cur acc.mesasTbl
      let rows2 := acc.rows ++ p.1
      let combined := dFlatten (dMerge prev_rows_by_key (index_rows_by_key rows2))
      { rows := rows2, mesasTbl := p.2, ambitos_ok := acc.ambitos_ok + 1
        trace := acc.trace ++ [.recon s.key]
          ++ (if combined = [] then [] else [.write combined]) }

/-- Result of one polling cycle. -/
structure CycleResult where
  rows : List Row
  prev_rows_by_key : Dict (List Row)
  mesasTbl : Dict ℚ
  ambitos_ok : ℕ
  trace : List Ev
deriving Repr

/-- One full cycle of `main`'s `while True` body: run every scope slot in
order, then replace `prev_rows_by_key` with the index of the accumulated
rows when the cycle produced any, and perform the final atomic write when
the cycle produced any rows. -/
def runCycle (slots : List Slot) (prevRows : Dict (List Row)) (prevMesas : Dict ℚ) :
    CycleResult :=
  let a := slots.foldl (slotStep prevRows) ⟨[], prevMesas, 0, []⟩
  { rows := a.rows
    prev_rows_by_key := if a.rows = [] then prevRows else index_rows_by_key a.rows
    mesasTbl := a.mesasTbl
    ambitos_ok := a.ambitos_ok
    trace := a.trace ++ (if a.rows = [] then [] else [.write a.rows]) }

/-- The effective progress value the guard publishes for one cycle,
given the table's previous baseline for the scope and the raw current
value: the previous value when it exceeds the current, else the current
value. -/
def guardPub (st : Option ℚ) (cur : ℚ) : ℚ :=
  match st with
  | some p => if cur < p then p else cur
  | none => cur

/-- Relation between two cycles' published row lists for a scope: every
row of the later cycle carries a progress value at least that of every
row of the earlier cycle. -/
def mesasLe (out1 out2 : List Row) : Prop :=
  ∀ r1 ∈ out1, ∀ r2 ∈ out2, r1.mesas_pct ≤ r2.mesas_pct

instance : IsTotal Row rowsDesc := ⟨fun a b => le_total (votos_float b) (votos_float a)⟩

instance : IsTrans Row rowsDesc := ⟨fun _ _ _ hab hbc => le_trans hbc hab⟩

/-- Well-formedness of a previous-state table, as `main` maintains it:
every entry is nonempty and holds only rows whose scope key is the
entry's key.  The initial empty table satisfies it, and so does
`index_rows_by_key rows` for any `rows`. -/
def TblWF (d : Dict (List Row)) : Prop :=
  ∀ p ∈ d, p.2 ≠ [] ∧ ∀ r ∈ p.2, rowKey r = p.1

/-- A fetched slot's rows carry that slot's scope key (true of
`build_rows_full`, which writes the scope's own `ambito`, `ambito_id`
and `categoria` into every row). -/
def outcomeKeyed (k : String) : Outcome → Prop
  | .fetched e _ => ∀ r ∈ e, rowKey r = k
  | _ => True

instance (k : String) (o : Outcome) : Decidable (outcomeKeyed k o) :=
  match o with
  | .skipped => isTrue trivial
  | .fetchFail => isTrue trivial
  | .fetched e _ => inferInstanceAs (Decidable (∀ r ∈ e, rowKey r = k))

/-- Well-formedness of a cycle's slot list: distinct scope keys (the
`ambito_key` strings `main` builds are distinct across its loop
iterations) and key-consistent fetched rows. -/
def SlotsWF (slots : List Slot) : Prop :=
  (slots.map Slot.key).Nodup ∧ ∀ s ∈ slots, outcomeKeyed s.key s.outcome

/-- An outcome that makes the scope fall back to its previous rows: the
fetch raised, or it produced an empty normalized result. -/
def slotFellBack : Outcome → Prop
  | .skipped => False
  | .fetchFail => True
  | .fetched e _ => e = []

instance (o : Outcome) : Decidable (slotFellBack o) :=
  match o with
  | .skipped => isFalse id
  | .fetchFail => isTrue trivial
  | .fetched e _ => inferInstanceAs (Decidable (e = []))

/-- A slot that succeeded with a nonempty result (counted in
`ambitos_ok`). -/
def okNonempty (s : Slot) : Bool :=
  match s.outcome with
  | .fetched e _ => !e.isEmpty
  | _ => false

instance (d : Dict (List Row)) : Decidable (TblWF d) :=
  inferInstanceAs (Decidable (∀ p ∈ d, p.2 ≠ [] ∧ ∀ r ∈ p.2, rowKey r = p.1))

instance (slots : List Slot) : Decidable (SlotsWF slots) :=
  inferInstanceAs
    (Decidable ((slots.map Slot.key).Nodup ∧ ∀ s ∈ slots, outcomeKeyed s.key s.outcome))

/-- Extension of a grouped-dict entry by a filtered row block (used to
characterize `index_rows_by_key`). -/
def optExtend (o : Option (List Row)) (f : List Row) : Option (List Row) :=
  match o with
  | none => if f = [] then none else some f
  | some v => some (v ++ f)

/-! ### Concrete sample inputs used by counterexamples and witnesses -/

/-- A payload item whose percentage field holds a non-numeric string. -/
def itemBadPct : Item := { votosPorcentaje := JVal.str "abc" }

/-- A payload item carrying neither an identifier nor any name. -/
def itemNoIdentity : Item := { votosPorcentaje := JVal.num 5 }

/-- The rows `build_rows_full` emits for `itemNoIdentity`. -/
def c9built : List Row :=
  ((build_rows_full [itemNoIdentity] "NACIONAL" "AR" "" "SENADORES" "t0" "" "d.png" []
    10).getD ([], 0)).1

/-- A previously published row for identity `X`, with photo `old.png`. -/
def c3prev : Row :=
  ⟨"NACIONAL", "AR", "", "SENADORES", "1", "X", "Xparty", 40, 10, "old.png", "t1"⟩

/-- A current-cycle fetched row (identity `Y`, photo `new.png`). -/
def c3curr : Row :=
  ⟨"NACIONAL", "AR", "", "SENADORES", "0", "Y", "Yparty", 45, 12, "new.png", "t2"⟩

/-- The stabilized output of the cycle fetching only `c3curr` while
`c3prev` is remembered. -/
def c3out : List Row :=
  _rank_and_stabilize_rows "NACIONAL|AR|SENADORES" [c3curr]
    [("NACIONAL|AR|SENADORES", [c3prev])]

/-- Sample published rows for the first guarded cycle (progress 10). -/
def c1rowsA : List Row :=
  [⟨"NACIONAL", "AR", "", "SENADORES", "1", "A", "pa", 40, trunc2Val 10, "f", "t1"⟩]

/-- Sample rows for the second guarded cycle (progress regressed to 8). -/
def c1rowsB : List Row :=
  [⟨"NACIONAL", "AR", "", "SENADORES", "1", "A", "pa", 45, trunc2Val 8, "f", "t2"⟩]

/-- A Senate-scope row fetched in the sample cycle. -/
def c5row1 : Row :=
  ⟨"NACIONAL", "AR", "", "SENADORES", "0", "A", "pa", 40, 10, "f", "t1"⟩

/-- A Deputies-scope row fetched in the sample cycle. -/
def c5row2 : Row :=
  ⟨"NACIONAL", "AR", "", "DIPUTADOS", "0", "B", "pb", 30, 10, "f", "t1"⟩

/-- A sample cycle in which both scopes fetch successfully. -/
def c5slots : List Slot :=
  [⟨"NACIONAL|AR|SENADORES", .fetched [c5row1] 10⟩,
   ⟨"NACIONAL|AR|DIPUTADOS", .fetched [c5row2] 10⟩]

/-- The event trace of that cycle, starting from empty tables. -/
def c5trace : List Ev := (runCycle c5slots [] []).trace

/-- A previous-state table remembering one Senate-scope row. -/
def c2prevT : Dict (List Row) := [("NACIONAL|AR|SENADORES", [c3prev])]

/-- A cycle in which the Senate scope is skipped entirely (its category's
catalog resolution raised, `main` did `continue`) while the Deputies
scope succeeds. -/
def c2slots : List Slot :=
  [⟨"NACIONAL|AR|SENADORES", .skipped⟩,
   ⟨"NACIONAL|AR|DIPUTADOS", .fetched [c5row2] 10⟩]

/-- A cycle in which the remembered Senate scope's fetch fails while the
Deputies scope succeeds. -/
def c2slotsB : List Slot :=
  [⟨"NACIONAL|AR|SENADORES", .fetchFail⟩,
   ⟨"NACIONAL|AR|DIPUTADOS", .fetched [c5row2] 10⟩]

/-- Cycle n: the Senate scope fetches one row successfully. -/
def c4slots1 : List Slot := [⟨"NACIONAL|AR|SENADORES", .fetched [c5row1] 10⟩]

/-- Cycle n+1: the Senate scope's fetch fails. -/
def c4slots2 : List Slot := [⟨"NACIONAL|AR|SENADORES", .fetchFail⟩]

/-! ## General lemmas -/

theorem trunc2Val_nonneg {x : ℚ} (hx : 0 ≤ x) : 0 ≤ trunc2Val x := by
  rw [trunc2Val, if_neg (not_lt.mpr hx)]
  exact div_nonneg (by exact_mod_cast Int.floor_nonneg.mpr (mul_nonneg hx (by norm_num)))
    (by norm_num)

theorem trunc2Val_nonpos {x : ℚ} (hx : x < 0) : trunc2Val x ≤ 0 := by
  rw [trunc2Val, if_pos hx]
  exact neg_nonpos.mpr (div_nonneg
    (by exact_mod_cast Int.floor_nonneg.mpr (mul_nonneg (by linarith) (by norm_num)))
    (by norm_num))

theorem trunc2Val_mono {p q : ℚ} (h : p ≤ q) : trunc2Val p ≤ trunc2Val q := by
  rcases lt_or_le p 0 with hp | hp
  · rcases lt_or_le q 0 with hq | hq
    · rw [trunc2Val, trunc2Val, if_pos hp, if_pos hq]
      have hf : ⌊(-q) * 100⌋ ≤ ⌊(-p) * 100⌋ := Int.floor_le_floor (by nlinarith)
      have : ((⌊(-q) * 100⌋ : ℤ) : ℚ) / 100 ≤ ((⌊(-p) * 100⌋ : ℤ) : ℚ) / 100 :=
        (div_le_div_iff_of_pos_right (by norm_num : (0:ℚ) < 100)).mpr (by exact_mod_cast hf)
      linarith
    · exact le_trans (trunc2Val_nonpos hp) (trunc2Val_nonneg hq)
  · have hq : (0:ℚ) ≤ q := le_trans hp h
    rw [trunc2Val, trunc2Val, if_neg (not_lt.mpr hp), if_neg (not_lt.mpr hq)]
    have hf : ⌊p * 100⌋ ≤ ⌊q * 100⌋ := Int.floor_le_floor (by nlinarith)
    exact (div_le_div_iff_of_pos_right (by norm_num : (0:ℚ) < 100)).mpr (by exact_mod_cast hf)

theorem pctKeyed_isSome :
    ∀ items : List Item, (∀ it ∈ items, (pct_of it).isSome) → (pctKeyed items).isSome := by
  intro items
  induction items with
  | nil => intro _; simp [pctKeyed]
  | cons a t ih =>
    intro h
    obtain ⟨q, hq⟩ := Option.isSome_iff_exists.mp (h a (by simp))
    obtain ⟨ps, hps⟩ := Option.isSome_iff_exists.mp (ih (fun x hx => h x (by simp [hx])))
    simp [pctKeyed, hq, hps]

theorem pctKeyed_mem {items : List Item} {keyed : List (Item × ℚ)}
    (h : pctKeyed items = some keyed) :
    ∀ p ∈ keyed, p.1 ∈ items ∧ pct_of p.1 = some p.2 := by
  induction items generalizing keyed with
  | nil =>
    simp only [pctKeyed, Option.some_inj] at h
    subst h; simp
  | cons a t ih =>
    rw [pctKeyed] at h
    cases hpa : pct_of a with
    | none => rw [hpa] at h; exact absurd h (by simp)
    | some q =>
      cases hmt : pctKeyed t with
      | none => rw [hpa, hmt] at h; exact absurd h (by simp)
      | some ks =>
        rw [hpa, hmt] at h
        simp only [Option.some_inj] at h
        subst h
        intro p hp
        rcases List.mem_cons.mp hp with hhd | htl
        · subst hhd; exact ⟨by simp, hpa⟩
        · obtain ⟨h1, h2⟩ := ih hmt p htl
          exact ⟨by simp [h1], h2⟩

/-! ## Lemmas about the rank stabilizer -/

theorem stab_def (ambito_key : String) (rows : List Row) (tbl : Dict (List Row)) :
    _rank_and_stabilize_rows ambito_key rows tbl =
      assignPuestos 1 (List.insertionSort rowsDesc
        (dedupByKey (withStubs rows ((dGet tbl ambito_key).getD [])) [])) := rfl

theorem uk_stub (pr r0 : Row) :
    unique_key_of (stubRow r0 pr) = unique_key_of pr := rfl

theorem uk_set_puesto (r : Row) (p : String) :
    unique_key_of { r with puesto := p } = unique_key_of r := rfl

theorem lastWithKey_mem {rs : List Row} {k : String} {pr : Row}
    (h : lastWithKey rs k = some pr) : pr ∈ rs ∧ unique_key_of pr = k := by
  have hm := List.mem_of_getLast?_eq_some h
  have := List.mem_filter.mp hm
  exact ⟨this.1, by simpa using this.2⟩

theorem firstOccurrences_mem {a : String} : ∀ {l : List String},
    a ∈ firstOccurrences l ↔ a ∈ l := by
  intro l
  induction l with
  | nil => simp [firstOccurrences]
  | cons k ks ih =>
    simp only [firstOccurrences, List.mem_cons, List.mem_filter]
    constructor
    · rintro (rfl | ⟨h1, _⟩)
      · exact Or.inl rfl
      · exact Or.inr (ih.mp h1)
    · rintro (rfl | h)
      · exact Or.inl rfl
      · by_cases hak : a = k
        · exact Or.inl hak
        · exact Or.inr ⟨ih.mpr h, by simpa using hak⟩

theorem dedupByKey_subset : ∀ (l : List Row) (seen : List String) (r : Row),
    r ∈ dedupByKey l seen → r ∈ l := by
  intro l
  induction l with
  | nil => intro seen r h; simp [dedupByKey] at h
  | cons x xs ih =>
    intro seen r h
    rw [dedupByKey] at h
    by_cases hx : unique_key_of x ∈ seen
    · rw [if_pos hx] at h
      exact List.mem_cons_of_mem _ (ih _ _ h)
    · rw [if_neg hx] at h
      rcases List.mem_cons.mp h with rfl | h2
      · exact List.mem_cons_self _ _
      · exact List.mem_cons_of_mem _ (ih _ _ h2)

theorem dedupByKey_keys_nodup : ∀ (l : List Row) (seen : List String),
    ((dedupByKey l seen).map unique_key_of).Nodup ∧
      ∀ k ∈ (dedupByKey l seen).map unique_key_of, k ∉ seen := by
  intro l
  induction l with
  | nil => intro seen; simp [dedupByKey]
  | cons x xs ih =>
    intro seen
    rw [dedupByKey]
    by_cases hx : unique_key_of x ∈ seen
    · rw [if_pos hx]; exact ih seen
    · rw [if_neg hx]
      obtain ⟨ihn, ihs⟩ := ih (unique_key_of x :: seen)
      refine ⟨?_, ?_⟩
      · rw [List.map_cons, List.nodup_cons]
        refine ⟨fun hmem => ?_, ihn⟩
        exact (ihs _ hmem) (List.mem_cons_self _ _)
      · intro k hk
        rw [List.map_cons] at hk
        rcases List.mem_cons.mp hk with rfl | h2
        · exact hx
        · intro hks
          exact (ihs k h2) (List.mem_cons_of_mem _ hks)

theorem dedupByKey_keeps : ∀ (l : List Row) (seen : List String) (r : Row),
    r ∈ l → (∀ r' ∈ l, unique_key_of r' = unique_key_of r → r' = r) →
    unique_key_of r ∉ seen → r ∈ dedupByKey l seen := by
  intro l
  induction l with
  | nil => intro seen r h; simp at h
  | cons x xs ih =>
    intro seen r hmem huniq hseen
    rw [dedupByKey]
    by_cases hxr : x = r
    · subst hxr
      rw [if_neg hseen]
      exact List.mem_cons_self _ _
    · have htl : r ∈ xs := by
        rcases List.mem_cons.mp hmem with h | h
        · exact absurd h.symm hxr
        · exact h
      have hne : unique_key_of x ≠ unique_key_of r :=
        fun heq => hxr (huniq x (List.mem_cons_self _ _) heq)
      by_cases hx : unique_key_of x ∈ seen
      · rw [if_pos hx]
        exact ih seen r htl (fun r' h' => huniq r' (List.mem_cons_of_mem _ h')) hseen
      · rw [if_neg hx]
        refine List.mem_cons_of_mem _ (ih _ r htl
          (fun r' h' => huniq r' (List.mem_cons_of_mem _ h')) ?_)
        intro hc
        rcases List.mem_cons.mp hc with heq | h2
        · exact hne heq.symm
        · exact hseen h2

theorem assignPuestos_length : ∀ (i : ℕ) (l : List Row),
    (assignPuestos i l).length = l.length := by
  intro i l
  induction l generalizing i with
  | nil => rfl
  | cons r rs ih => simp [assignPuestos, ih]

theorem assignPuestos_puesto : ∀ (l : List Row) (i j : ℕ)
    (h : j < (assignPuestos i l).length),
    ((assignPuestos i l).get ⟨j, h⟩).puesto = toString (i + j) := by
  intro l
  induction l with
  | nil => intro i j h; simp [assignPuestos] at h
  | cons r rs ih =>
    intro i j h
    cases j with
    | zero => simp [assignPuestos]
    | succ j' =>
      have h' : j' < (assignPuestos (i + 1) rs).length := by
        simpa [assignPuestos] using h
      have := ih (i + 1) j' h'
      simpa [assignPuestos, Nat.add_assoc, Nat.add_comm 1 j'] using this

theorem assignPuestos_map_votos : ∀ (i : ℕ) (l : List Row),
    (assignPuestos i l).map votos_float = l.map votos_float := by
  intro i l
  induction l generalizing i with
  | nil => rfl
  | cons r rs ih => simp [assignPuestos, ih, votos_float]

theorem assignPuestos_map_uk : ∀ (i : ℕ) (l : List Row),
    (assignPuestos i l).map unique_key_of = l.map unique_key_of := by
  intro i l
  induction l generalizing i with
  | nil => rfl
  | cons r rs ih => simp [assignPuestos, ih, uk_set_puesto]

theorem assignPuestos_map_rowKey : ∀ (i : ℕ) (l : List Row),
    (assignPuestos i l).map rowKey = l.map rowKey := by
  intro i l
  induction l generalizing i with
  | nil => rfl
  | cons r rs ih => simp [assignPuestos, ih, rowKey]

theorem mem_assignPuestos_of_mem : ∀ (i : ℕ) (l : List Row) (r : Row),
    r ∈ l → ∃ p, { r with puesto := p } ∈ assignPuestos i l := by
  intro i l
  induction l generalizing i with
  | nil => intro r h; simp at h
  | cons x xs ih =>
    intro r h
    rcases List.mem_cons.mp h with rfl | htl
    · exact ⟨toString i, List.mem_cons_self _ _⟩
    · obtain ⟨p, hp⟩ := ih (i + 1) r htl
      exact ⟨p, List.mem_cons_of_mem _ hp⟩

theorem of_mem_assignPuestos : ∀ (i : ℕ) (l : List Row) (r' : Row),
    r' ∈ assignPuestos i l → ∃ r ∈ l, ∃ p, r' = { r with puesto := p } := by
  intro i l
  induction l generalizing i with
  | nil => intro r' h; simp [assignPuestos] at h
  | cons x xs ih =>
    intro r' h
    rw [assignPuestos] at h
    rcases List.mem_cons.mp h with rfl | htl
    · exact ⟨x, List.mem_cons_self _ _, toString i, rfl⟩
    · obtain ⟨r, hr, p, hp⟩ := ih (i + 1) r' htl
      exact ⟨r, List.mem_cons_of_mem _ hr, p, hp⟩

theorem mem_withStubs {rows prev_rows : List Row} {r : Row} (h : r ∈ withStubs rows prev_rows) :
    r ∈ rows ∨ ∃ k pr, lastWithKey prev_rows k = some pr ∧ k ∈ missingKeys rows prev_rows ∧
      ∃ r0, rows = r0 :: rows.tail ∧ r = stubRow r0 pr := by
  rcases hrows : rows with _ | ⟨r0, rest⟩
  · subst hrows
    rw [withStubs] at h
    simp at h
  · rw [hrows, withStubs] at h
    rcases List.mem_append.mp h with h1 | h1
    · exact Or.inl (hrows ▸ h1)
    · obtain ⟨k, hk, hfk⟩ := List.mem_filterMap.mp h1
      cases hlk : lastWithKey prev_rows k with
      | none => rw [hlk] at hfk; simp at hfk
      | some pr =>
        rw [hlk] at hfk
        simp at hfk
        exact Or.inr ⟨k, pr, hlk, hrows ▸ hk, r0, by simp [hrows], hfk.symm⟩

theorem stab_keys_nodup (key : String) (rows : List Row) (tbl : Dict (List Row)) :
    ((_rank_and_stabilize_rows key rows tbl).map unique_key_of).Nodup := by
  rw [stab_def, assignPuestos_map_uk]
  have hperm : List.Perm
      ((List.insertionSort rowsDesc
        (dedupByKey (withStubs rows ((dGet tbl key).getD [])) [])).map unique_key_of)
      ((dedupByKey (withStubs rows ((dGet tbl key).getD [])) []).map unique_key_of) :=
    (List.perm_insertionSort rowsDesc _).map unique_key_of
  exact (hperm.nodup_iff).mpr (dedupByKey_keys_nodup _ []).1

theorem stab_uk_source (key : String) (rows : List Row) (tbl : Dict (List Row)) :
    ∀ r ∈ _rank_and_stabilize_rows key rows tbl,
      unique_key_of r ∈ rows.map unique_key_of ∨
        unique_key_of r ∈ ((dGet tbl key).getD []).map unique_key_of := by
  intro r hr
  rw [stab_def] at hr
  obtain ⟨r1, hr1, p, rfl⟩ := of_mem_assignPuestos _ _ _ hr
  rw [uk_set_puesto]
  have hr2 : r1 ∈ dedupByKey _ [] := (List.perm_insertionSort rowsDesc _).mem_iff.mp hr1
  have hr3 := dedupByKey_subset _ _ _ hr2
  rcases mem_withStubs hr3 with h | ⟨k, pr, hlk, _, _, _, rfl⟩
  · exact Or.inl (List.mem_map_of_mem unique_key_of h)
  · obtain ⟨hprm, hpk⟩ := lastWithKey_mem hlk
    exact Or.inr (by rw [uk_stub]; exact List.mem_map_of_mem unique_key_of hprm)

/-! ## C6: truncation, not rounding -/

/-- C6: the two-decimal formatter truncates toward zero (never rounds),
preserving the sign: `truncate_2 29.995 = "29.99"`,
`truncate_2 (-0.004) = "-0.00"`, and the value denoted by the formatted
string (`trunc2Val`) never exceeds the true value in magnitude. -/
theorem c6_truncate_toward_zero :
    truncate_2 (29995 / 1000) = "29.99" ∧ truncate_2 (-(4 / 1000)) = "-0.00" ∧
      ∀ x : ℚ, |trunc2Val x| ≤ |x| := by
  refine ⟨by with_unfolding_all decide, by with_unfolding_all decide, fun x => ?_⟩
  rcases lt_or_le x 0 with hx | hx
  · have hfl : (0 : ℤ) ≤ ⌊(-x) * 100⌋ :=
      Int.floor_nonneg.mpr (mul_nonneg (by linarith) (by norm_num))
    have hq : (0 : ℚ) ≤ ((⌊(-x) * 100⌋ : ℤ) : ℚ) / 100 :=
      div_nonneg (by exact_mod_cast hfl) (by norm_num)
    rw [trunc2Val, if_pos hx, abs_neg, abs_of_nonneg hq, abs_of_neg hx,
      div_le_iff₀ (by norm_num : (0:ℚ) < 100)]
    exact Int.floor_le _
  · have hfl : (0 : ℤ) ≤ ⌊x * 100⌋ :=
      Int.floor_nonneg.mpr (mul_nonneg hx (by norm_num))
    have hq : (0 : ℚ) ≤ ((⌊x * 100⌋ : ℤ) : ℚ) / 100 :=
      div_nonneg (by exact_mod_cast hfl) (by norm_num)
    rw [trunc2Val, if_neg (not_lt.mpr hx), abs_of_nonneg hq, abs_of_nonneg hx,
      div_le_iff₀ (by norm_num : (0:ℚ) < 100)]
    exact Int.floor_le _

/-! ## C7: tolerance of malformed percentage fields -/

/-- C7 counterexample: a present but non-numeric percentage value does
not default to 0 — `float("abc")` raises, and normalization of the scope
returns no row list (the exception escapes `build_rows_full`). -/
theorem c7_counterexample :
    pct_of itemBadPct = none ∧
      build_rows_full [itemBadPct] "NACIONAL" "AR" "" "SENADORES" "t0" "" "default.png" [] 10
        = none := by
  with_unfolding_all decide

/-- C7 amended: the vote share is read from `votosPorcentaje` then
`porcentajeVotos` and defaults to 0 when neither is present or truthy;
when every item's selected percentage value converts (`float` does not
raise), normalization returns a row list.  (A truthy non-numeric value
makes `build_rows_full` raise; `main`'s per-scope handler catches it, so
the cycle itself still never aborts — see C4.) -/
theorem c7_amended (items : List Item)
    (ambito ambito_id provincia cname ts pb pd : String) (fm : Dict String) (mp : ℚ)
    (h : ∀ it ∈ items, (pct_of it).isSome) :
    (build_rows_full items ambito ambito_id provincia cname ts pb pd fm mp).isSome ∧
      ∀ it : Item, it.votosPorcentaje.truthy = false → it.porcentajeVotos.truthy = false →
        pct_of it = some 0 := by
  constructor
  · obtain ⟨keyed, hk⟩ := Option.isSome_iff_exists.mp (pctKeyed_isSome items h)
    rw [build_rows_full, hk]
    simp
  · intro it h1 h2
    simp [pct_of, jOr, h1, h2, pyFloat]

/-- C7 amended, witness. -/
theorem c7_amended_witness :
    (build_rows_full [({ porcentajeVotos := JVal.num 5 } : Item), ({} : Item)]
        "NACIONAL" "AR" "" "SENADORES" "t0" "" "default.png" [] 10).isSome ∧
      ∀ it : Item, it.votosPorcentaje.truthy = false → it.porcentajeVotos.truthy = false →
        pct_of it = some 0 :=
  c7_amended _ _ _ _ _ _ _ _ _ _ (by with_unfolding_all decide)

/-! ## C9: identity non-emptiness -/

/-- C9 counterexample: an item with neither `idAgrupacion` nor any name
field produces a published row whose identity is the empty string — the
row survives stabilization and ranking with `unique_key_of` equal to
`""`. -/
theorem c9_counterexample :
    c9built ≠ [] ∧
      (_rank_and_stabilize_rows "NACIONAL|AR|SENADORES" c9built []).map unique_key_of
        = [""] := by
  with_unfolding_all decide

/-! ## C3: full-mode reinstatement of vanished contestants -/

/-- C3 counterexample: the reinstated stub for the vanished identity `X`
carries the PREVIOUS row's photo (`pr[9]`), not the current scope's photo
as the claim states. -/
theorem c3_counterexample :
    (c3out.filter (fun r => unique_key_of r == "X")).map Row.foto = ["old.png"] ∧
      ¬ ∀ r ∈ c3out, unique_key_of r = "X" → r.foto = c3curr.foto := by
  with_unfolding_all decide

/-- C3 amended: every identity seen previously but absent from the
current (non-empty) rows is reinstated as a stub with vote share 0, the
previously known display name and identifier, the PREVIOUSLY known photo
(not the current scope's photo), and the current scope's progress and
timestamp values; so a contestant ranked in cycle n and missing from the
fetch in cycle n+1 still appears in cycle n+1's output. -/
theorem c3_amended (key : String) (r0 : Row) (rest : List Row) (tbl : Dict (List Row))
    (k : String) (pr : Row)
    (hpr : lastWithKey ((dGet tbl key).getD []) k = some pr)
    (hmiss : ∀ r ∈ r0 :: rest, unique_key_of r ≠ k) :
    ∃ r ∈ _rank_and_stabilize_rows key (r0 :: rest) tbl,
      unique_key_of r = k ∧ r.votos_pct = 0 ∧ r.agrupacion_id = pr.agrupacion_id ∧
      r.agrupacion = pr.agrupacion ∧ r.foto = pr.foto ∧
      r.mesas_pct = r0.mesas_pct ∧ r.ts_iso = r0.ts_iso := by
  obtain ⟨hprm, hpk⟩ := lastWithKey_mem hpr
  have hany : ((r0 :: rest).any fun r => unique_key_of r == k) = false := by
    rw [List.any_eq_false]
    intro r hr
    simpa using hmiss r hr
  have hmem_keys : k ∈ missingKeys (r0 :: rest) ((dGet tbl key).getD []) := by
    rw [missingKeys, List.mem_filter]
    refine ⟨firstOccurrences_mem.mpr ?_, by rw [hany]; rfl⟩
    exact hpk ▸ List.mem_map_of_mem unique_key_of hprm
  have hstub : stubRow r0 pr ∈ withStubs (r0 :: rest) ((dGet tbl key).getD []) := by
    rw [withStubs]
    refine List.mem_append.mpr (Or.inr (List.mem_filterMap.mpr ⟨k, hmem_keys, ?_⟩))
    rw [hpr]; rfl
  have huniq : ∀ r' ∈ withStubs (r0 :: rest) ((dGet tbl key).getD []),
      unique_key_of r' = unique_key_of (stubRow r0 pr) → r' = stubRow r0 pr := by
    intro r' hr' heq
    rw [uk_stub, hpk] at heq
    rcases mem_withStubs hr' with h | ⟨k', pr', hlk', _, r0', hr0', rfl⟩
    · exact absurd heq (hmiss r' h)
    · have hr0eq : r0' = r0 := (List.cons.injEq _ _ _ _ |>.mp hr0'.symm).1
      subst hr0eq
      rw [uk_stub] at heq
      have hk'eq : unique_key_of pr' = k' := (lastWithKey_mem hlk').2
      rw [hk'eq] at heq
      subst heq
      rw [hlk'] at hpr
      have : pr' = pr := by injection hpr
      rw [this]
  have hded : stubRow r0 pr ∈
      dedupByKey (withStubs (r0 :: rest) ((dGet tbl key).getD [])) [] :=
    dedupByKey_keeps _ [] _ hstub huniq (by simp)
  have hsort : stubRow r0 pr ∈ List.insertionSort rowsDesc
      (dedupByKey (withStubs (r0 :: rest) ((dGet tbl key).getD [])) []) :=
    (List.perm_insertionSort rowsDesc _).mem_iff.mpr hded
  obtain ⟨p, hp⟩ := mem_assignPuestos_of_mem 1 _ _ hsort
  refine ⟨{ stubRow r0 pr with puesto := p }, by rw [stab_def]; exact hp, ?_, rfl, rfl, rfl,
    rfl, rfl, rfl⟩
  rw [uk_set_puesto, uk_stub, hpk]

/-- C3 amended, witness. -/
theorem c3_amended_witness :
    ∃ r ∈ _rank_and_stabilize_rows "NACIONAL|AR|SENADORES" [c3curr]
        [("NACIONAL|AR|SENADORES", [c3prev])],
      unique_key_of r = "X" ∧ r.votos_pct = 0 ∧ r.agrupacion_id = c3prev.agrupacion_id ∧
      r.agrupacion = c3prev.agrupacion ∧ r.foto = c3prev.foto ∧
      r.mesas_pct = c3curr.mesas_pct ∧ r.ts_iso = c3curr.ts_iso :=
  c3_amended "NACIONAL|AR|SENADORES" c3curr [] [("NACIONAL|AR|SENADORES", [c3prev])] "X"
    c3prev (by with_unfolding_all decide) (by with_unfolding_all decide)

/-! ## C8: rank contiguity -/

theorem assignPuestos_map_puesto : ∀ (i : ℕ) (l : List Row),
    (assignPuestos i l).map Row.puesto
      = (List.range l.length).map (fun j => toString (i + j)) := by
  intro i l
  induction l generalizing i with
  | nil => rfl
  | cons r rs ih =>
    simp only [assignPuestos, List.map_cons, List.length_cons,
      List.range_succ_eq_map, List.map_map]
    refine congrArg₂ _ (by simp) ?_
    rw [ih (i + 1)]
    refine congrArg₂ _ ?_ rfl
    funext j
    simp only [Function.comp_apply]
    exact congrArg toString (by omega)

/-- C8: for every scope in every cycle, the stabilizer's output ranks are
exactly the strings `"1"` through `"n"` in output order, and the output
is in (weakly) descending vote-share order as produced by the sort. -/
theorem c8_rank_contiguity (key : String) (rows : List Row) (tbl : Dict (List Row)) :
    ((_rank_and_stabilize_rows key rows tbl).map Row.puesto
        = (List.range (_rank_and_stabilize_rows key rows tbl).length).map
            (fun j => toString (j + 1))) ∧
      (_rank_and_stabilize_rows key rows tbl).Pairwise
        (fun a b => votos_float b ≤ votos_float a) := by
  constructor
  · rw [stab_def, assignPuestos_map_puesto, assignPuestos_length]
    refine congrArg₂ _ ?_ rfl
    funext j
    exact congrArg toString (by omega)
  · rw [stab_def]
    have hs : List.Sorted rowsDesc (List.insertionSort rowsDesc
        (dedupByKey (withStubs rows ((dGet tbl key).getD [])) [])) :=
      List.sorted_insertionSort rowsDesc _
    have h2 : ((assignPuestos 1 (List.insertionSort rowsDesc
        (dedupByKey (withStubs rows ((dGet tbl key).getD [])) []))).map votos_float).Pairwise
        (fun x y : ℚ => y ≤ x) := by
      rw [assignPuestos_map_votos]
      exact List.pairwise_map.mpr hs
    exact List.pairwise_map.mp h2

/-! ## C10: the duplicate-identity warning is unreachable on stabilized output -/

theorem dupWarn_nodup_none (vkey : String) : ∀ (rows : List Row) (seen : List String),
    ((rows.map unique_key_of).Nodup) →
    (∀ r ∈ rows, pyStrip r.agrupacion_id ≠ "" → pyStrip r.agrupacion_id ∉ seen) →
    dupWarn vkey rows seen = none := by
  intro rows
  induction rows with
  | nil => intro seen _ _; rfl
  | cons r rs ih =>
    intro seen hnd hseen
    rw [List.map_cons, List.nodup_cons] at hnd
    rw [dupWarn]
    by_cases hid : pyStrip r.agrupacion_id ≠ ""
    · rw [if_pos hid, if_neg (hseen r (List.mem_cons_self _ _) hid)]
      apply ih _ hnd.2
      intro r' hr' hid' hc
      rcases List.mem_cons.mp hc with heq | h2
      · have hukr : unique_key_of r = pyStrip r.agrupacion_id := by
          rw [unique_key_of, if_pos hid]
        have hukr' : unique_key_of r' = pyStrip r'.agrupacion_id := by
          rw [unique_key_of, if_pos hid']
        exact hnd.1 (by
          rw [hukr, ← heq, ← hukr']
          exact List.mem_map_of_mem unique_key_of hr')
      · exact hseen r' (List.mem_cons_of_mem _ hr') hid' h2
    · rw [if_neg hid]
      exact ih _ hnd.2 (fun r' hr' hid' => hseen r' (List.mem_cons_of_mem _ hr') hid')

/-- C10: the validator's duplicate-identity warning can never fire on a
row list produced by the rank stabilizer — its deduplication keys rows by
nonempty `agrupacion_id` (else name), so no two stabilized rows share a
nonempty `agrupacion_id`. -/
theorem c10_no_duplicate_warning (vkey skey : String) (rows : List Row)
    (tbl : Dict (List Row)) :
    (_validate_rows_per_ambito vkey (_rank_and_stabilize_rows skey rows tbl)).any
      Warning.isDup = false := by
  rw [_validate_rows_per_ambito,
    dupWarn_nodup_none vkey _ [] (stab_keys_nodup skey rows tbl) (by simp)]
  split <;> simp [Warning.isDup]

/-! ## C9 amended -/

/-- C9 amended: the identity of every emitted row is the provided
identifier (stripped) when nonblank, else the display name (stripped);
when every payload item carries a nonblank identifier or name, and every
remembered previous row of the scope has a nonempty identity, every row
published for the scope — both from `build_rows_full` and after
stabilization — has a nonempty identity.  (An item with neither yields an
empty identity, see the counterexample.) -/
theorem c9_amended (items : List Item)
    (ambito ambito_id provincia cname ts pb pd : String) (fm : Dict String) (mp : ℚ)
    (key : String) (tbl : Dict (List Row))
    (hid : ∀ it ∈ items, pyStrip (pyStrOr it.idAgrupacion) ≠ "" ∨
        pyStrip (pyStrOr (jOr it.nombreAgrupacion it.nombre)) ≠ "")
    (htbl : ∀ r ∈ (dGet tbl key).getD [], unique_key_of r ≠ "") :
    (∀ r ∈ ((build_rows_full items ambito ambito_id provincia cname ts pb pd fm
        mp).getD ([], 0)).1, unique_key_of r ≠ "") ∧
      ∀ r ∈ _rank_and_stabilize_rows key
          ((build_rows_full items ambito ambito_id provincia cname ts pb pd fm
            mp).getD ([], 0)).1 tbl,
        unique_key_of r ≠ "" := by
  have hrows : ∀ r ∈ ((build_rows_full items ambito ambito_id provincia cname ts pb pd fm
      mp).getD ([], 0)).1, unique_key_of r ≠ "" := by
    cases hpk : pctKeyed items with
    | none => rw [build_rows_full, hpk]; simp
    | some keyed =>
      rw [build_rows_full, hpk]
      intro r hr
      simp only [Option.getD_some] at hr
      obtain ⟨p, hp, rfl⟩ := List.mem_map.mp hr
      have hpmem : p ∈ keyed := (List.perm_insertionSort itemsDesc keyed).mem_iff.mp hp
      have hit := (pctKeyed_mem hpk p hpmem).1
      rcases hid p.1 hit with h | h
      · rw [unique_key_of]
        simp only
        rw [if_pos h]
        exact h
      · rw [unique_key_of]
        simp only
        by_cases hida : pyStrip (pyStrOr p.1.idAgrupacion) ≠ ""
        · rw [if_pos hida]; exact hida
        · rw [if_neg hida]; exact h
  refine ⟨hrows, fun r hr => ?_⟩
  rcases stab_uk_source key _ tbl r hr with h | h
  · obtain ⟨r', hr', heq⟩ := List.mem_map.mp h
    exact heq ▸ hrows r' hr'
  · obtain ⟨r', hr', heq⟩ := List.mem_map.mp h
    exact heq ▸ htbl r' hr'

/-- C9 amended, witness. -/
theorem c9_amended_witness :
    (∀ r ∈ ((build_rows_full [({ idAgrupacion := JVal.str "A", votosPorcentaje := JVal.num 5 }
        : Item)] "NACIONAL" "AR" "" "SENADORES" "t0" "" "d.png" [] 10).getD ([], 0)).1,
      unique_key_of r ≠ "") ∧
      ∀ r ∈ _rank_and_stabilize_rows "NACIONAL|AR|SENADORES"
          ((build_rows_full [({ idAgrupacion := JVal.str "A", votosPorcentaje := JVal.num 5 }
            : Item)] "NACIONAL" "AR" "" "SENADORES" "t0" "" "d.png" [] 10).getD ([], 0)).1
          [("NACIONAL|AR|SENADORES", [c3prev])],
        unique_key_of r ≠ "" :=
  c9_amended _ _ _ _ _ _ _ _ _ _ _ _ (by with_unfolding_all decide)
    (by with_unfolding_all decide)

/-! ## C1: monotonic progress -/

theorem dGet_dSet_self {α : Type} : ∀ (d : Dict α) (k : String) (v : α),
    dGet (dSet d k v) k = some v := by
  intro d k v
  induction d with
  | nil => simp [dSet, dGet]
  | cons p ps ih =>
    rw [dSet]
    by_cases h : p.1 = k
    · rw [if_pos h, dGet, if_pos rfl]
    · rw [if_neg h, dGet, if_neg h, ih]

theorem guardPub_ge (p cur : ℚ) : p ≤ guardPub (some p) cur := by
  rw [guardPub]
  by_cases h : cur < p
  · rw [if_pos h]
  · rw [if_neg h]
    exact le_of_not_lt h

theorem enforce_spec (key : String) (rows : List Row) (cur : ℚ) (tbl : Dict ℚ)
    (hrows : ∀ r ∈ rows, r.mesas_pct = trunc2Val cur) :
    (∀ r ∈ (enforce_mesas_monotonic key rows cur tbl).1,
        r.mesas_pct = trunc2Val (guardPub (dGet tbl key) cur)) ∧
      dGet (enforce_mesas_monotonic key rows cur tbl).2 key
        = some (guardPub (dGet tbl key) cur) := by
  rw [enforce_mesas_monotonic]
  split
  next prev hprev =>
    rw [hprev]
    simp only [guardPub]
    by_cases hlt : cur < prev
    · simp only [if_pos hlt]
      constructor
      · intro r hr
        obtain ⟨r', _, rfl⟩ := List.mem_map.mp hr
        rfl
      · exact hprev
    · simp only [if_neg hlt]
      exact ⟨hrows, dGet_dSet_self tbl key cur⟩
  next hprev =>
    rw [hprev]
    simp only [guardPub]
    exact ⟨hrows, dGet_dSet_self tbl key cur⟩

theorem guardCycles_aux (key : String) : ∀ (inputs : List (List Row × ℚ)) (tbl : Dict ℚ),
    (∀ p ∈ inputs, ∀ r ∈ p.1, r.mesas_pct = trunc2Val p.2) →
    List.Chain' mesasLe (guardCycles key tbl inputs) ∧
      ∀ rows cur rest, inputs = (rows, cur) :: rest →
        ∀ out ∈ (guardCycles key tbl inputs).head?, ∀ r ∈ out,
          r.mesas_pct = trunc2Val (guardPub (dGet tbl key) cur) := by
  intro inputs
  induction inputs with
  | nil =>
    intro tbl _
    exact ⟨List.chain'_nil, fun rows cur rest h => by simp at h⟩
  | cons q rest ih =>
    intro tbl h
    obtain ⟨rows, cur⟩ := q
    have hp := h (rows, cur) (List.mem_cons_self _ _)
    have hspec := enforce_spec key rows cur tbl hp
    have ihres := ih (enforce_mesas_monotonic key rows cur tbl).2
      (fun q' hq' => h q' (List.mem_cons_of_mem _ hq'))
    rw [guardCycles]
    constructor
    · rw [List.chain'_cons']
      refine ⟨?_, ihres.1⟩
      intro out2 hout2 r1 hr1 r2 hr2
      rcases hrest : rest with _ | ⟨⟨rows2, cur2⟩, rest2⟩
      · rw [hrest] at hout2
        simp [guardCycles] at hout2
      · have h2 := ihres.2 rows2 cur2 rest2 hrest out2 (hrest ▸ hout2) r2 hr2
        rw [hspec.1 r1 hr1, h2, hspec.2]
        exact trunc2Val_mono (guardPub_ge _ _)
    · intro rows' cur' rest' heq out hout r hr
      have h1 : (rows, cur) = (rows', cur') := (List.cons.injEq _ _ _ _ |>.mp heq).1
      obtain ⟨hre, hce⟩ := Prod.mk.injEq _ _ _ _ |>.mp h1
      subst hre; subst hce
      simp only [List.head?_cons, Option.mem_def, Option.some_inj] at hout
      subst hout
      exact hspec.1 r hr

/-- C1: the progress metric published for a scope key never decreases
across cycles.  Each cycle's freshly built rows carry the truncation of
that cycle's raw progress value (as `build_rows_full` writes
`truncate_2(mesas_pct)` into every row); threading the cycles through
`enforce_mesas_monotonic` exactly as `main` does, the published progress
values form a monotonically non-decreasing chain: every row of cycle
n+1 carries a progress value ≥ that of every row of cycle n. -/
theorem c1_monotonic_progress (key : String) (tbl : Dict ℚ) (inputs : List (List Row × ℚ))
    (h : ∀ p ∈ inputs, ∀ r ∈ p.1, r.mesas_pct = trunc2Val p.2) :
    List.Chain' mesasLe (guardCycles key tbl inputs) :=
  (guardCycles_aux key inputs tbl h).1

/-- C1 witness: a concrete two-cycle run in which the raw progress
regresses from 10 to 8 and the published values still never decrease. -/
theorem c1_monotonic_progress_witness :
    List.Chain' mesasLe
      (guardCycles "NACIONAL|AR|SENADORES" [] [(c1rowsA, 10), (c1rowsB, 8)]) :=
  c1_monotonic_progress "NACIONAL|AR|SENADORES" [] [(c1rowsA, 10), (c1rowsB, 8)]
    (by with_unfolding_all decide)

/-! ## C5: writer invocations per cycle -/

theorem dedupByKey_ne {l : List Row} (h : l ≠ []) : dedupByKey l [] ≠ [] := by
  rcases l with _ | ⟨r, rs⟩
  · exact absurd rfl h
  · rw [dedupByKey]
    rw [if_neg (by simp)]
    simp

theorem withStubs_ne {rows prev_rows : List Row} (h : rows ≠ []) :
    withStubs rows prev_rows ≠ [] := by
  rcases rows with _ | ⟨r0, rest⟩
  · exact absurd rfl h
  · rw [withStubs]
    simp

theorem stab_ne (key : String) (rows : List Row) (tbl : Dict (List Row))
    (h : rows ≠ []) : _rank_and_stabilize_rows key rows tbl ≠ [] := by
  intro hc
  have hlen := congrArg List.length hc
  rw [stab_def, assignPuestos_length, (List.perm_insertionSort rowsDesc _).length_eq] at hlen
  exact dedupByKey_ne (withStubs_ne h) (List.length_eq_zero.mp hlen)

theorem enforce_fst_ne (key : String) (rows : List Row) (cur : ℚ) (tbl : Dict ℚ)
    (h : rows ≠ []) : (enforce_mesas_monotonic key rows cur tbl).1 ≠ [] := by
  rw [enforce_mesas_monotonic]
  split
  next prev hprev =>
    by_cases hlt : cur < prev
    · simp only [if_pos hlt]
      simpa using h
    · simp only [if_neg hlt]
      exact h
  next hprev => exact h

theorem dAppendRow_ne (d : Dict (List Row)) (k : String) (r : Row) :
    dAppendRow d k r ≠ [] := by
  cases d with
  | nil => simp [dAppendRow]
  | cons p ps =>
    rw [dAppendRow]
    by_cases h : p.1 = k
    · rw [if_pos h]; simp
    · rw [if_neg h]; simp

theorem foldl_dAppendRow_ne : ∀ (rows : List Row) (d : Dict (List Row)), d ≠ [] →
    rows.foldl (fun d r => dAppendRow d (rowKey r) r) d ≠ [] := by
  intro rows
  induction rows with
  | nil => intro d h; exact h
  | cons r rs ih => intro d _; exact ih _ (dAppendRow_ne d (rowKey r) r)

theorem index_ne {rows : List Row} (h : rows ≠ []) : index_rows_by_key rows ≠ [] := by
  rcases rows with _ | ⟨r, rs⟩
  · exact absurd rfl h
  · rw [index_rows_by_key, List.foldl_cons]
    exact foldl_dAppendRow_ne rs _ (dAppendRow_ne [] (rowKey r) r)

theorem dAppendRow_vals {d : Dict (List Row)} (h : ∀ p ∈ d, p.2 ≠ []) (k : String) (r : Row) :
    ∀ p ∈ dAppendRow d k r, p.2 ≠ [] := by
  induction d with
  | nil => simp [dAppendRow]
  | cons q qs ih =>
    rw [dAppendRow]
    by_cases hq : q.1 = k
    · rw [if_pos hq]
      intro p hp
      rcases List.mem_cons.mp hp with rfl | h2
      · simp
      · exact h p (List.mem_cons_of_mem _ h2)
    · rw [if_neg hq]
      intro p hp
      rcases List.mem_cons.mp hp with rfl | h2
      · exact h p (List.mem_cons_self _ _)
      · exact ih (fun p' hp' => h p' (List.mem_cons_of_mem _ hp')) p h2

theorem index_vals : ∀ (rows : List Row) (d : Dict (List Row)), (∀ p ∈ d, p.2 ≠ []) →
    ∀ p ∈ rows.foldl (fun d r => dAppendRow d (rowKey r) r) d, p.2 ≠ [] := by
  intro rows
  induction rows with
  | nil => intro d h; exact h
  | cons r rs ih => intro d h; exact ih _ (dAppendRow_vals h (rowKey r) r)

theorem dSet_ne {α : Type} (d : Dict α) (k : String) (v : α) : dSet d k v ≠ [] := by
  cases d with
  | nil => simp [dSet]
  | cons p ps =>
    rw [dSet]
    by_cases h : p.1 = k
    · rw [if_pos h]; simp
    · rw [if_neg h]; simp

theorem dSet_vals {d : Dict (List Row)} (h : ∀ p ∈ d, p.2 ≠ []) {k : String} {v : List Row}
    (hv : v ≠ []) : ∀ p ∈ dSet d k v, p.2 ≠ [] := by
  induction d with
  | nil =>
    rw [dSet]
    intro p hp
    rcases List.mem_cons.mp hp with rfl | h2
    · exact hv
    · simp at h2
  | cons q qs ih =>
    rw [dSet]
    by_cases hq : q.1 = k
    · rw [if_pos hq]
      intro p hp
      rcases List.mem_cons.mp hp with rfl | h2
      · exact hv
      · exact h p (List.mem_cons_of_mem _ h2)
    · rw [if_neg hq]
      intro p hp
      rcases List.mem_cons.mp hp with rfl | h2
      · exact h p (List.mem_cons_self _ _)
      · exact ih (fun p' hp' => h p' (List.mem_cons_of_mem _ hp')) p h2

theorem dMerge_ne {a b : Dict (List Row)} (hb : b ≠ []) : dMerge a b ≠ [] := by
  have hfold : ∀ (ps : Dict (List Row)) (d : Dict (List Row)), d ≠ [] →
      ps.foldl (fun d p => dSet d p.1 p.2) d ≠ [] := by
    intro ps
    induction ps with
    | nil => intro d h; exact h
    | cons p ps' ih => intro d _; exact ih _ (dSet_ne d p.1 p.2)
  rcases b with _ | ⟨p, ps⟩
  · exact absurd rfl hb
  · rw [dMerge, List.foldl_cons]
    exact hfold ps _ (dSet_ne a p.1 p.2)

theorem dMerge_vals {a b : Dict (List Row)} (ha : ∀ p ∈ a, p.2 ≠ [])
    (hb : ∀ p ∈ b, p.2 ≠ []) : ∀ p ∈ dMerge a b, p.2 ≠ [] := by
  induction b generalizing a with
  | nil => exact ha
  | cons q qs ih =>
    rw [dMerge, List.foldl_cons]
    exact ih (dSet_vals ha (hb q (List.mem_cons_self _ _)))
      (fun p hp => hb p (List.mem_cons_of_mem _ hp))

theorem dFlatten_ne {d : Dict (List Row)} (hne : d ≠ []) (hvals : ∀ p ∈ d, p.2 ≠ []) :
    dFlatten d ≠ [] := by
  rcases d with _ | ⟨p, ps⟩
  · exact absurd rfl hne
  · rw [dFlatten, List.map_cons, List.flatten_cons]
    intro hc
    exact hvals p (List.mem_cons_self _ _) (List.append_eq_nil.mp hc).1

theorem slotStep_writes (prev : Dict (List Row)) (hvals : ∀ p ∈ prev, p.2 ≠ []) :
    ∀ (slots : List Slot) (acc : CycleAcc),
      (slots.foldl (slotStep prev) acc).trace.countP Ev.isWrite + acc.ambitos_ok
        = acc.trace.countP Ev.isWrite + (slots.foldl (slotStep prev) acc).ambitos_ok := by
  intro slots
  induction slots with
  | nil => intro acc; rfl
  | cons s ss ih =>
    intro acc
    rw [List.foldl_cons]
    obtain ⟨skey, soutcome⟩ := s
    have h1 := ih (slotStep prev acc ⟨skey, soutcome⟩)
    have hstep : (slotStep prev acc ⟨skey, soutcome⟩).trace.countP Ev.isWrite + acc.ambitos_ok
        = acc.trace.countP Ev.isWrite + (slotStep prev acc ⟨skey, soutcome⟩).ambitos_ok := by
      cases soutcome with
      | skipped => rfl
      | fetchFail => simp [slotStep, List.countP_append, Ev.isWrite]
      | fetched entries cur =>
        by_cases he : entries = []
        · simp [slotStep, he, List.countP_append, Ev.isWrite]
        · have hrows2 : acc.rows ++
              (enforce_mesas_monotonic skey
                (_rank_and_stabilize_rows skey entries prev) cur acc.mesasTbl).1 ≠ [] := by
            simp only [ne_eq, List.append_eq_nil]
            rintro ⟨_, hc⟩
            exact enforce_fst_ne _ _ _ _ (stab_ne _ _ _ he) hc
          have hcomb : dFlatten (dMerge prev (index_rows_by_key (acc.rows ++
              (enforce_mesas_monotonic skey
                (_rank_and_stabilize_rows skey entries prev) cur acc.mesasTbl).1))) ≠ [] := by
            refine dFlatten_ne (dMerge_ne (index_ne hrows2)) ?_
            refine dMerge_vals hvals ?_
            intro p hp
            exact index_vals _ [] (by simp) p hp
          simp [slotStep, he, hcomb, List.countP_append, Ev.isWrite]
          omega
    omega

/-- C5 counterexample: in a cycle where both scopes fetch successfully,
the output writer is invoked three times (once after each scope, plus the
final write), and one write occurs before the second scope's
reconciliation completes — the claim's "at most once, after all
reconciliations" is false. -/
theorem c5_counterexample :
    c5trace.countP Ev.isWrite = 3 ∧ ¬ (c5trace.countP Ev.isWrite ≤ 1) ∧
      (c5trace[1]?).any Ev.isWrite = true ∧
      c5trace[2]? = some (Ev.recon "NACIONAL|AR|DIPUTADOS") := by
  with_unfolding_all decide

/-- C5 amended: the writer is invoked once after every successfully
reconciled scope (an incremental snapshot of the previous table merged
with the rows indexed so far) and once more at the end of the cycle when
the accumulated rows are nonempty: the number of writer invocations in a
cycle equals `ambitos_ok` plus one when the cycle produced rows (instead
of the claimed "at most once after all reconciliations"). -/
theorem c5_amended (slots : List Slot) (prevRows : Dict (List Row)) (prevMesas : Dict ℚ)
    (hvals : ∀ p ∈ prevRows, p.2 ≠ []) :
    (runCycle slots prevRows prevMesas).trace.countP Ev.isWrite
      = (runCycle slots prevRows prevMesas).ambitos_ok
        + (if (runCycle slots prevRows prevMesas).rows = [] then 0 else 1) := by
  rw [runCycle]
  simp only [List.countP_append]
  have h := slotStep_writes prevRows hvals slots ⟨[], prevMesas, 0, []⟩
  simp at h
  by_cases hr : (slots.foldl (slotStep prevRows) ⟨[], prevMesas, 0, []⟩).rows = []
  · simp only [if_pos hr]
    simpa using h
  · simp only [if_neg hr]
    simp [List.countP_cons, Ev.isWrite]
    omega

/-- C5 amended, witness. -/
theorem c5_amended_witness :
    (runCycle c5slots [] []).trace.countP Ev.isWrite
      = (runCycle c5slots [] []).ambitos_ok
        + (if (runCycle c5slots [] []).rows = [] then 0 else 1) :=
  c5_amended c5slots [] [] (by with_unfolding_all decide)

/-! ## Lemmas about `index_rows_by_key` and table well-formedness -/

theorem dGet_mem {α : Type} : ∀ {d : Dict α} {k : String} {v : α},
    dGet d k = some v → ∃ p ∈ d, p.1 = k ∧ p.2 = v := by
  intro d
  induction d with
  | nil => intro k v h; simp [dGet] at h
  | cons p ps ih =>
    intro k v h
    rw [dGet] at h
    by_cases hp : p.1 = k
    · rw [if_pos hp] at h
      exact ⟨p, List.mem_cons_self _ _, hp, Option.some_inj.mp h⟩
    · rw [if_neg hp] at h
      obtain ⟨q, hq, h1, h2⟩ := ih h
      exact ⟨q, List.mem_cons_of_mem _ hq, h1, h2⟩

theorem dGet_keyed {d : Dict (List Row)} (hT : TblWF d) {k : String} :
    ∀ r ∈ (dGet d k).getD [], rowKey r = k := by
  cases h : dGet d k with
  | none => simp
  | some v =>
    obtain ⟨p, hp, h1, h2⟩ := dGet_mem h
    intro r hr
    rw [Option.getD_some] at hr
    exact h1 ▸ ((hT p hp).2 r (h2 ▸ hr))

theorem TblWF_getD_ne {d : Dict (List Row)} (hT : TblWF d) {k : String} {v : List Row}
    (h : dGet d k = some v) : v ≠ [] := by
  obtain ⟨p, hp, _, h2⟩ := dGet_mem h
  exact h2 ▸ (hT p hp).1

theorem dGet_dAppendRow : ∀ (d : Dict (List Row)) (k' : String) (r : Row) (k : String),
    dGet (dAppendRow d k' r) k
      = if k' = k then some ((dGet d k).getD [] ++ [r]) else dGet d k := by
  intro d
  induction d with
  | nil =>
    intro k' r k
    by_cases h : k' = k
    · subst h
      simp [dAppendRow, dGet]
    · rw [if_neg h]
      simp [dAppendRow, dGet, h]
  | cons p ps ih =>
    intro k' r k
    rw [dAppendRow]
    by_cases hp : p.1 = k'
    · rw [if_pos hp, dGet]
      by_cases hk : p.1 = k
      · have hkk : k' = k := hp.symm.trans hk
        rw [if_pos hk, if_pos hkk, dGet, if_pos hk]
        simp
      · have hkk : k' ≠ k := fun h => hk (hp.symm ▸ h)
        rw [if_neg hk, if_neg hkk, dGet, if_neg hk]
    · rw [if_neg hp, dGet]
      by_cases hk : p.1 = k
      · have hkk : k' ≠ k := fun h => hp (hk.trans h.symm)
        rw [if_pos hk, if_neg hkk, dGet, if_pos hk]
      · rw [if_neg hk, ih, dGet, if_neg hk]

theorem dGet_index_foldl : ∀ (rows : List Row) (d : Dict (List Row)) (k : String),
    dGet (rows.foldl (fun d r => dAppendRow d (rowKey r) r) d) k
      = optExtend (dGet d k) (rows.filter (fun r => rowKey r == k)) := by
  intro rows
  induction rows with
  | nil =>
    intro d k
    cases h : dGet d k <;> simp [optExtend, h]
  | cons r rs ih =>
    intro d k
    rw [List.foldl_cons, ih, dGet_dAppendRow]
    by_cases hk : rowKey r = k
    · rw [if_pos hk, List.filter_cons_of_pos (by simpa using hk)]
      cases h : dGet d k with
      | none => simp [optExtend, h]
      | some v => simp [optExtend, h]
    · rw [if_neg hk, List.filter_cons_of_neg (by simpa using hk)]

theorem dGet_index (rows : List Row) (k : String) :
    dGet (index_rows_by_key rows) k
      = if rows.filter (fun r => rowKey r == k) = [] then none
        else some (rows.filter (fun r => rowKey r == k)) := by
  rw [index_rows_by_key, dGet_index_foldl]
  rfl

theorem dAppendRow_keyed {d : Dict (List Row)}
    (h : ∀ p ∈ d, ∀ r' ∈ p.2, rowKey r' = p.1) (r : Row) :
    ∀ p ∈ dAppendRow d (rowKey r) r, ∀ r' ∈ p.2, rowKey r' = p.1 := by
  induction d with
  | nil =>
    rw [dAppendRow]
    intro p hp
    rcases List.mem_cons.mp hp with rfl | h2
    · intro r' hr'
      rcases List.mem_cons.mp hr' with rfl | h3
      · rfl
      · simp at h3
    · simp at h2
  | cons q qs ih =>
    rw [dAppendRow]
    by_cases hq : q.1 = rowKey r
    · rw [if_pos hq]
      intro p hp
      rcases List.mem_cons.mp hp with rfl | h2
      · intro r' hr'
        rcases List.mem_append.mp hr' with h3 | h3
        · exact h q (List.mem_cons_self _ _) r' h3
        · rw [List.mem_singleton.mp h3]
          exact hq.symm
      · exact h p (List.mem_cons_of_mem _ h2)
    · rw [if_neg hq]
      intro p hp
      rcases List.mem_cons.mp hp with rfl | h2
      · exact h p (List.mem_cons_self _ _)
      · exact ih (fun p' hp' => h p' (List.mem_cons_of_mem _ hp')) p h2

theorem index_TblWF (rows : List Row) : TblWF (index_rows_by_key rows) := by
  have hkeyed : ∀ (rs : List Row) (d : Dict (List Row)),
      (∀ p ∈ d, ∀ r' ∈ p.2, rowKey r' = p.1) →
      ∀ p ∈ rs.foldl (fun d r => dAppendRow d (rowKey r) r) d, ∀ r' ∈ p.2, rowKey r' = p.1 := by
    intro rs
    induction rs with
    | nil => intro d h; exact h
    | cons r rs' ih => intro d h; exact ih _ (dAppendRow_keyed h r)
  intro p hp
  exact ⟨index_vals rows [] (by simp) p hp, hkeyed rows [] (by simp) p hp⟩

/-! ## Scope-key preservation through the per-slot pipeline -/

theorem stab_rowKey {key k : String} {rows : List Row} {tbl : Dict (List Row)}
    (hrows : ∀ r ∈ rows, rowKey r = k) :
    ∀ r ∈ _rank_and_stabilize_rows key rows tbl, rowKey r = k := by
  intro r hr
  rw [stab_def] at hr
  obtain ⟨r1, hr1, p, rfl⟩ := of_mem_assignPuestos _ _ _ hr
  have hpk : rowKey { r1 with puesto := p } = rowKey r1 := rfl
  rw [hpk]
  have hr2 : r1 ∈ dedupByKey _ [] := (List.perm_insertionSort rowsDesc _).mem_iff.mp hr1
  have hr3 := dedupByKey_subset _ _ _ hr2
  rcases mem_withStubs hr3 with h | ⟨k', pr', _, _, r0, hr0, rfl⟩
  · exact hrows r1 h
  · have hsk : rowKey (stubRow r0 pr') = rowKey r0 := rfl
    rw [hsk]
    exact hrows r0 (by rw [hr0]; exact List.mem_cons_self _ _)

theorem enforce_rowKey {key : String} {rows : List Row} {cur : ℚ} {tbl : Dict ℚ} {k : String}
    (hrows : ∀ r ∈ rows, rowKey r = k) :
    ∀ r ∈ (enforce_mesas_monotonic key rows cur tbl).1, rowKey r = k := by
  rw [enforce_mesas_monotonic]
  split
  next prev hprev =>
    by_cases hlt : cur < prev
    · simp only [if_pos hlt]
      intro r hr
      obtain ⟨r', hr', rfl⟩ := List.mem_map.mp hr
      exact hrows r' hr'
    · simp only [if_neg hlt]
      exact hrows
  next hprev => exact hrows

theorem filter_keyed_ne {l : List Row} {k k' : String} (hne : k' ≠ k)
    (hl : ∀ r ∈ l, rowKey r = k') :
    l.filter (fun r => rowKey r == k) = [] := by
  rw [List.filter_eq_nil_iff]
  intro r hr
  simp only [beq_iff_eq]
  rw [hl r hr]
  exact hne

theorem filter_keyed_self {l : List Row} {k : String} (hl : ∀ r ∈ l, rowKey r = k) :
    l.filter (fun r => rowKey r == k) = l := by
  rw [List.filter_eq_self]
  intro r hr
  simp only [beq_iff_eq]
  exact hl r hr

theorem slotStep_rows_ext (prev : Dict (List Row)) (acc : CycleAcc) (s : Slot) :
    ∃ ext, (slotStep prev acc s).rows = acc.rows ++ ext := by
  obtain ⟨skey, soutcome⟩ := s
  cases soutcome with
  | skipped => exact ⟨[], by simp [slotStep]⟩
  | fetchFail => exact ⟨(dGet prev skey).getD [], by simp [slotStep]⟩
  | fetched e c =>
    by_cases he : e = []
    · exact ⟨(dGet prev skey).getD [], by simp [slotStep, he]⟩
    · exact ⟨(enforce_mesas_monotonic skey (_rank_and_stabilize_rows skey e prev) c
        acc.mesasTbl).1, by simp [slotStep, he]⟩

theorem foldl_rows_ext (prev : Dict (List Row)) :
    ∀ (slots : List Slot) (acc : CycleAcc),
      ∃ ext, (slots.foldl (slotStep prev) acc).rows = acc.rows ++ ext := by
  intro slots
  induction slots with
  | nil => intro acc; exact ⟨[], by simp⟩
  | cons s ss ih =>
    intro acc
    rw [List.foldl_cons]
    obtain ⟨ext1, h1⟩ := slotStep_rows_ext prev acc s
    obtain ⟨ext2, h2⟩ := ih (slotStep prev acc s)
    exact ⟨ext1 ++ ext2, by rw [h2, h1, List.append_assoc]⟩

theorem runSlots_filter_no_k (prev : Dict (List Row)) (hT : TblWF prev) (k : String) :
    ∀ (slots : List Slot) (acc : CycleAcc),
      (∀ s ∈ slots, s.key ≠ k) → (∀ s ∈ slots, outcomeKeyed s.key s.outcome) →
      (slots.foldl (slotStep prev) acc).rows.filter (fun r => rowKey r == k)
        = acc.rows.filter (fun r => rowKey r == k) := by
  intro slots
  induction slots with
  | nil => intro acc _ _; rfl
  | cons s ss ih =>
    intro acc hk hkeyed
    rw [List.foldl_cons,
      ih _ (fun s' hs' => hk s' (List.mem_cons_of_mem _ hs'))
        (fun s' hs' => hkeyed s' (List.mem_cons_of_mem _ hs'))]
    have hsk := hk s (List.mem_cons_self _ _)
    have hso := hkeyed s (List.mem_cons_self _ _)
    obtain ⟨skey, soutcome⟩ := s
    simp only at hsk hso
    cases soutcome with
    | skipped => rfl
    | fetchFail =>
      simp only [slotStep]
      rw [List.filter_append, filter_keyed_ne hsk (dGet_keyed hT), List.append_nil]
    | fetched e c =>
      by_cases he : e = []
      · simp only [slotStep, if_pos he]
        rw [List.filter_append, filter_keyed_ne hsk (dGet_keyed hT), List.append_nil]
      · simp only [slotStep, if_neg he]
        rw [List.filter_append,
          filter_keyed_ne hsk (enforce_rowKey (stab_rowKey hso)), List.append_nil]

theorem nodup_keys_split {pre post : List Slot} {s0 : Slot}
    (h : ((pre ++ s0 :: post).map Slot.key).Nodup) :
    (∀ s ∈ pre, s.key ≠ s0.key) ∧ (∀ s ∈ post, s.key ≠ s0.key) := by
  rw [List.map_append, List.map_cons, List.nodup_append] at h
  obtain ⟨_, h2, h3⟩ := h
  constructor
  · intro s hs hc
    exact h3 (List.mem_map_of_mem Slot.key hs) (by rw [hc]; exact List.mem_cons_self _ _)
  · intro s hs hc
    exact (List.nodup_cons.mp h2).1 (hc ▸ List.mem_map_of_mem Slot.key hs)

theorem runCycle_filter_fellback (slots : List Slot) (prev : Dict (List Row))
    (mesas : Dict ℚ) (hT : TblWF prev) (hS : SlotsWF slots) (k : String) (s0 : Slot)
    (hmem : s0 ∈ slots) (hk : s0.key = k) (hfb : slotFellBack s0.outcome) :
    (runCycle slots prev mesas).rows.filter (fun r => rowKey r == k)
      = (dGet prev k).getD [] := by
  obtain ⟨pre, post, rfl⟩ := List.append_of_mem hmem
  obtain ⟨hpre, hpost⟩ := nodup_keys_split hS.1
  have hkeyed : ∀ s ∈ pre ++ s0 :: post, outcomeKeyed s.key s.outcome := hS.2
  have hrc : (runCycle (pre ++ s0 :: post) prev mesas).rows
      = ((pre ++ s0 :: post).foldl (slotStep prev) ⟨[], mesas, 0, []⟩).rows := rfl
  rw [hrc, List.foldl_append, List.foldl_cons]
  rw [runSlots_filter_no_k prev hT k post _
    (fun s hs => hk ▸ hpost s hs)
    (fun s hs => hkeyed s (List.mem_append.mpr (Or.inr (List.mem_cons_of_mem _ hs))))]
  have hA : (pre.foldl (slotStep prev) ⟨[], mesas, 0, []⟩).rows.filter
      (fun r => rowKey r == k) = [] := by
    rw [runSlots_filter_no_k prev hT k pre _
      (fun s hs => hk ▸ hpre s hs)
      (fun s hs => hkeyed s (List.mem_append.mpr (Or.inl hs)))]
    rfl
  obtain ⟨skey, soutcome⟩ := s0
  simp only at hk
  subst hk
  cases soutcome with
  | skipped => exact absurd hfb id
  | fetchFail =>
    simp only [slotStep]
    rw [List.filter_append, hA, List.nil_append, filter_keyed_self (dGet_keyed hT)]
  | fetched e c =>
    have he : e = [] := hfb
    simp only [slotStep, if_pos he]
    rw [List.filter_append, hA, List.nil_append, filter_keyed_self (dGet_keyed hT)]

/-! ## C2: previous-state table update discipline -/

/-- C2 counterexample: a scope with a remembered entry that is skipped
entirely this cycle (its category's catalog resolution raised) has its
entry REMOVED from the previous-state table when any other scope produced
rows, because `main` replaces the whole table with the index of this
cycle's rows. -/
theorem c2_counterexample :
    dGet c2prevT "NACIONAL|AR|SENADORES" = some [c3prev] ∧
      dGet (runCycle c2slots c2prevT []).prev_rows_by_key "NACIONAL|AR|SENADORES"
        = none := by
  with_unfolding_all decide

/-- C2 amended: a scope whose fetch failed or returned an empty result
(so its loop body ran and re-added its previous rows as fallback) retains
its previous-state entry unchanged after the cycle; but a scope skipped
entirely (catalog resolution failure) loses its entry whenever the cycle
produced any rows — see the counterexample. -/
theorem c2_amended (slots : List Slot) (prev : Dict (List Row)) (mesas : Dict ℚ)
    (hT : TblWF prev) (hS : SlotsWF slots) (k : String) (P : List Row)
    (hget : dGet prev k = some P)
    (s0 : Slot) (hmem : s0 ∈ slots) (hk : s0.key = k) (hfb : slotFellBack s0.outcome) :
    dGet (runCycle slots prev mesas).prev_rows_by_key k = some P := by
  have hfil := runCycle_filter_fellback slots prev mesas hT hS k s0 hmem hk hfb
  rw [hget, Option.getD_some] at hfil
  have hPne : P ≠ [] := TblWF_getD_ne hT hget
  have hrowsne : (runCycle slots prev mesas).rows ≠ [] := by
    intro hc
    rw [hc, List.filter_nil] at hfil
    exact hPne hfil.symm
  have ht1 : (runCycle slots prev mesas).prev_rows_by_key
      = if (runCycle slots prev mesas).rows = [] then prev
        else index_rows_by_key (runCycle slots prev mesas).rows := rfl
  rw [ht1, if_neg hrowsne, dGet_index, hfil, if_neg hPne]

/-- C2 amended, witness. -/
theorem c2_amended_witness :
    dGet (runCycle c2slotsB c2prevT []).prev_rows_by_key "NACIONAL|AR|SENADORES"
      = some [c3prev] :=
  c2_amended c2slotsB c2prevT [] (by with_unfolding_all decide)
    (by with_unfolding_all decide) "NACIONAL|AR|SENADORES" [c3prev]
    (by with_unfolding_all decide) ⟨"NACIONAL|AR|SENADORES", Outcome.fetchFail⟩
    (by with_unfolding_all decide) rfl trivial

/-! ## C4: fail-static fallback fidelity -/

theorem runCycle_ok_count (slots : List Slot) (prev : Dict (List Row)) (mesas : Dict ℚ) :
    (runCycle slots prev mesas).ambitos_ok = slots.countP okNonempty := by
  have haux : ∀ (ss : List Slot) (acc : CycleAcc),
      (ss.foldl (slotStep prev) acc).ambitos_ok = acc.ambitos_ok + ss.countP okNonempty := by
    intro ss
    induction ss with
    | nil => intro acc; simp
    | cons s ss' ih =>
      intro acc
      rw [List.foldl_cons, ih, List.countP_cons]
      have hstep : (slotStep prev acc s).ambitos_ok
          = acc.ambitos_ok + (if okNonempty s then 1 else 0) := by
        obtain ⟨skey, so⟩ := s
        cases so with
        | skipped => simp [slotStep, okNonempty]
        | fetchFail => simp [slotStep, okNonempty]
        | fetched e c =>
          rcases e with _ | ⟨r, rs⟩
          · simp [slotStep, okNonempty]
          · simp [slotStep, okNonempty]
      omega
  have hpr : (runCycle slots prev mesas).ambitos_ok
      = (slots.foldl (slotStep prev) ⟨[], mesas, 0, []⟩).ambitos_ok := rfl
  rw [hpr, haux]
  simp

theorem runCycle_ok_filter_ne (slots : List Slot) (prev : Dict (List Row)) (mesas : Dict ℚ)
    (k : String) (s0 : Slot) (hmem : s0 ∈ slots) (hk : s0.key = k)
    (e : List Row) (c : ℚ) (ho : s0.outcome = .fetched e c) (he : e ≠ [])
    (hkeyed : outcomeKeyed s0.key s0.outcome) :
    (runCycle slots prev mesas).rows.filter (fun r => rowKey r == k) ≠ [] := by
  obtain ⟨pre, post, rfl⟩ := List.append_of_mem hmem
  have hrc : (runCycle (pre ++ s0 :: post) prev mesas).rows
      = ((pre ++ s0 :: post).foldl (slotStep prev) ⟨[], mesas, 0, []⟩).rows := rfl
  rw [hrc, List.foldl_append, List.foldl_cons]
  obtain ⟨ext, hext⟩ := foldl_rows_ext prev post
    (slotStep prev (pre.foldl (slotStep prev) ⟨[], mesas, 0, []⟩) s0)
  rw [hext, List.filter_append]
  obtain ⟨skey, so⟩ := s0
  simp only at hk ho hkeyed
  subst hk
  subst ho
  simp only [slotStep, if_neg he]
  rw [List.filter_append,
    filter_keyed_self (enforce_rowKey (stab_rowKey hkeyed))]
  simp only [ne_eq, List.append_eq_nil]
  rintro ⟨⟨_, hc⟩, _⟩
  exact enforce_fst_ne _ _ _ _ (stab_ne _ _ _ he) hc

/-- C4: fail-static fallback fidelity across two consecutive cycles.  If
in cycle n the scope `k` fetched a nonempty result and in cycle n+1 its
fetch raised or yielded an empty normalized result, then the rows cycle
n+1 contributes for `k` are exactly the rows cycle n published for `k`
(value-equal, hence byte-for-byte identical CSV rows), and the scope is
excluded from cycle n+1's succeeded count (`ambitos_ok` counts exactly
the slots that fetched nonempty results). -/
theorem c4_fallback_fidelity (slots1 slots2 : List Slot) (t0 : Dict (List Row))
    (m0 m1 : Dict ℚ) (k : String)
    (hS1 : SlotsWF slots1) (hS2 : SlotsWF slots2)
    (s1 : Slot) (hmem1 : s1 ∈ slots1) (hk1 : s1.key = k)
    (e1 : List Row) (c1 : ℚ) (ho1 : s1.outcome = .fetched e1 c1) (he1 : e1 ≠ [])
    (s2 : Slot) (hmem2 : s2 ∈ slots2) (hk2 : s2.key = k) (hfb2 : slotFellBack s2.outcome) :
    (runCycle slots2 (runCycle slots1 t0 m0).prev_rows_by_key m1).rows.filter
        (fun r => rowKey r == k)
      = (runCycle slots1 t0 m0).rows.filter (fun r => rowKey r == k) ∧
    (runCycle slots1 t0 m0).rows.filter (fun r => rowKey r == k) ≠ [] ∧
    (runCycle slots2 (runCycle slots1 t0 m0).prev_rows_by_key m1).ambitos_ok
      = slots2.countP okNonempty := by
  have hfil1ne := runCycle_ok_filter_ne slots1 t0 m0 k s1 hmem1 hk1 e1 c1 ho1 he1
    (hS1.2 s1 hmem1)
  have hrowsne : (runCycle slots1 t0 m0).rows ≠ [] := by
    intro hc
    rw [hc, List.filter_nil] at hfil1ne
    exact hfil1ne rfl
  have ht1 : (runCycle slots1 t0 m0).prev_rows_by_key
      = if (runCycle slots1 t0 m0).rows = [] then t0
        else index_rows_by_key (runCycle slots1 t0 m0).rows := rfl
  rw [ht1, if_neg hrowsne]
  have hTi : TblWF (index_rows_by_key (runCycle slots1 t0 m0).rows) := index_TblWF _
  have hfil2 := runCycle_filter_fellback slots2 _ m1 hTi hS2 k s2 hmem2 hk2 hfb2
  refine ⟨?_, hfil1ne, runCycle_ok_count _ _ _⟩
  rw [hfil2, dGet_index, if_neg hfil1ne, Option.getD_some]

/-- C4 witness. -/
theorem c4_fallback_fidelity_witness :
    (runCycle c4slots2 (runCycle c4slots1 [] []).prev_rows_by_key []).rows.filter
        (fun r => rowKey r == "NACIONAL|AR|SENADORES")
      = (runCycle c4slots1 [] []).rows.filter
          (fun r => rowKey r == "NACIONAL|AR|SENADORES") ∧
    (runCycle c4slots1 [] []).rows.filter
        (fun r => rowKey r == "NACIONAL|AR|SENADORES") ≠ [] ∧
    (runCycle c4slots2 (runCycle c4slots1 [] []).prev_rows_by_key []).ambitos_ok
      = c4slots2.countP okNonempty :=
  c4_fallback_fidelity c4slots1 c4slots2 [] [] [] "NACIONAL|AR|SENADORES"
    (by with_unfolding_all decide) (by with_unfolding_all decide)
    ⟨"NACIONAL|AR|SENADORES", Outcome.fetched [c5row1] 10⟩
    (by with_unfolding_all decide) rfl [c5row1] 10 rfl
    (by with_unfolding_all decide)
    ⟨"NACIONAL|AR|SENADORES", Outcome.fetchFail⟩
    (by with_unfolding_all decide) rfl trivial

end Elecciones
